import Mathlib

/-!
Verification of the Tic-Tac-Toe engine in src/script.js: the game-state
model (board, move history, win/draw detection, play and takeBack) and the
depth-bounded negamax search with alpha-beta pruning (minimax, goodMove).

The JavaScript class mutates one shared state; play succeeds only when the
target cell is empty and the game is not won, and takeBack exactly undoes
the last play, so the search (which always plays a valid move from a
non-terminal state and immediately takes it back) is embedded functionally:
the recursive call receives the successor state and the caller keeps the
original state, which is what the mutate-then-undo pair computes.
-/

set_option maxHeartbeats 1000000

/-- Extended integers modelling the JavaScript number values used by the
search: -Infinity, finite values, +Infinity. -/
inductive XInt where
  | negInf
  | fin (n : Int)
  | posInf
deriving DecidableEq, Repr

/-- JavaScript unary minus on XInt. -/
def XInt.neg : XInt → XInt
  | negInf => posInf
  | fin n => fin (-n)
  | posInf => negInf

/-- JavaScript comparison a <= b on XInt. -/
def XInt.le : XInt → XInt → Bool
  | negInf, _ => true
  | _, posInf => true
  | fin a, fin b => decide (a ≤ b)
  | fin _, negInf => false
  | posInf, fin _ => false
  | posInf, negInf => false

/-- JavaScript comparison a < b on XInt. -/
def XInt.lt (a b : XInt) : Bool := !XInt.le b a

/-- JavaScript Math.max on XInt. -/
def XInt.max (a b : XInt) : XInt := if XInt.le a b then b else a

/-- The game state of the TicTacToe class: 9-cell board (0 empty, 1 and 2
the two player marks), move history, and the two cached status flags. -/
structure TicTacToe where
  board : List Nat
  moves : List Nat
  isWin : Bool
  isDraw : Bool
deriving DecidableEq, Repr

/-- The constructor: empty board, empty history, both flags false. -/
def TicTacToe.new : TicTacToe :=
  { board := List.replicate 9 0, moves := [], isWin := false, isDraw := false }

/-- get turn: 1 + this.moves.length % 2. -/
def turn (s : TicTacToe) : Nat := 1 + s.moves.length % 2

/-- get validMoves: the indices of the empty cells, in ascending order.
The source maps each cell to its index (cell 0) or to the sentinel -1
(cell occupied) and then filters the sentinel out; board indices are
nonnegative, so this keeps exactly the indices of empty cells. -/
def validMoves (s : TicTacToe) : List Nat :=
  (List.range s.board.length).filter (fun i => s.board[i]? = some 0)

/-- board.join(""): each cell value becomes its decimal digit character
(cells of reachable boards are 0, 1 or 2). -/
def boardString (b : List Nat) : List Char := b.map (fun c => Char.ofNat (48 + c))

/-- One backreference triple of the win regex: a character in the class
[12] at position i, repeated at positions j and k (i < j < k), with the
dots in between forcing the string to extend through position k, that is
k + 1 <= length. Out-of-range reads use a placeholder that matches
nothing. -/
def tripMatch (s : List Char) (i j k : Nat) : Bool :=
  decide (k + 1 ≤ s.length) &&
  (s.getD i ' ' == '1' || s.getD i ' ' == '2') &&
  s.getD j ' ' == s.getD i ' ' && s.getD k ' ' == s.getD i ' '

/-- The win test of play, translated from the source regular expression
(tested against board.join("")) alternative by alternative.
Writing n for the string length:
the first alternative consumes q whole groups of three arbitrary
characters and then a repeated triple at positions 3q, 3q+1, 3q+2
(so 3q+3 <= n, hence q < n and ranging q over range n is exhaustive);
the second consumes j in \x7b0,1,2\x7d optional characters and then a
triple at positions j, j+3, j+6 (so j+7 <= n); the third is the triple at
0, 4, 8 (consuming 9 characters); the fourth skips two characters and is
the triple at 2, 4, 6 (consuming 7). -/
def winRegexTest (s : List Char) : Bool :=
  (List.range s.length).any (fun q => tripMatch s (3*q) (3*q+1) (3*q+2)) ||
  (List.range 3).any (fun j => tripMatch s j (j+3) (j+6)) ||
  tripMatch s 0 4 8 ||
  tripMatch s 2 4 6

/-- The 8 winning index triples named by the spec: 3 rows, 3 columns,
2 diagonals. -/
def winTriples : List (Nat × Nat × Nat) :=
  [(0,1,2), (3,4,5), (6,7,8), (0,3,6), (1,4,7), (2,5,8), (0,4,8), (2,4,6)]

/-- Win test as the spec states it: some winning triple has three equal
non-empty cells. -/
def winByTriples (b : List Nat) : Bool :=
  winTriples.any (fun t =>
    (b.getD t.1 0 != 0) && (b.getD t.1 0 == b.getD t.2.1 0) &&
    (b.getD t.2.1 0 == b.getD t.2.2 0))

/-- play(move): fails when the cell read is not an empty cell (this covers
an out-of-range index, whose read yields undefined in JavaScript) or the
game is already won; otherwise writes the current player mark, appends the
move to the history, and recomputes both flags. -/
def play (s : TicTacToe) (move : Nat) : Bool × TicTacToe :=
  if s.board[move]? ≠ some 0 ∨ s.isWin = true then (false, s)
  else
    let board := s.board.set move (turn s)
    let moves := s.moves ++ [move]
    let isWin := winRegexTest (boardString board)
    (true, { board := board, moves := moves, isWin := isWin,
             isDraw := !isWin && moves.length == board.length })

/-- takeBack(): fails when the history is empty (getLast? is none exactly
then); otherwise pops the last move, clears its cell, and clears both
flags. -/
def takeBack (s : TicTacToe) : Bool × TicTacToe :=
  match s.moves.getLast? with
  | none => (false, s)
  | some m =>
      (true, { board := s.board.set m 0, moves := s.moves.dropLast,
               isWin := false, isDraw := false })

/-- The record returned by minimax: a value, and the best-move list when
one was ever assigned. The moves field is none when the JavaScript object
has no moves property (the terminal returns and the initial
best = \x7bvalue: -Infinity\x7d). -/
structure MMResult where
  value : XInt
  moves : Option (List Nat)
deriving DecidableEq, Repr

/-- The for-loop of minimax over the remaining valid moves. Arguments:
the state being searched, the recursive evaluator for one ply deeper
(the source plays the move, recurses on the mutated state, and takes the
move back, which the functional embedding renders by recursing on the
successor state), the remaining moves, the current alpha, beta, and the
current best record. Step order as in the source: negate the child value,
raise alpha, break on alpha >= beta BEFORE the best-set update, then
update the best set (reset on strictly better, append on equal; the
append reads the moves list of the current best, present whenever this
branch runs on a finite best value). -/
def mmLoop (s : TicTacToe) (rec : TicTacToe → XInt → XInt → MMResult) :
    List Nat → XInt → XInt → MMResult → MMResult
  | [], _alpha, _beta, best => best
  | m :: rest, alpha, beta, best =>
      let r := rec (play s m).2 (XInt.neg beta) (XInt.neg alpha)
      let value := XInt.neg r.value
      let alpha' := XInt.max alpha value
      if XInt.le beta alpha' then best
      else
        let best' :=
          if XInt.le best.value value then
            if XInt.lt best.value value then { value := value, moves := some [m] }
            else { value := best.value, moves := some (best.moves.getD [] ++ [m]) }
          else best
        mmLoop s rec rest alpha' beta best'

/-- minimax(depth, alpha, beta) from the source: terminal and cutoff tests
(a won state is worth -10 to the player about to move, a drawn state or
exhausted depth 0), then the pruned loop over validMoves starting from
best = \x7bvalue: -Infinity\x7d. -/
def minimax (s : TicTacToe) (depth : Nat) (alpha beta : XInt) : MMResult :=
  if s.isWin then { value := XInt.fin (-10), moves := none }
  else if s.isDraw then { value := XInt.fin 0, moves := none }
  else
    match depth with
    | 0 => { value := XInt.fin 0, moves := none }
    | d + 1 =>
        mmLoop s (fun s' a b => minimax s' d a b) (validMoves s) alpha beta
          { value := XInt.negInf, moves := none }

/-- Modelled from the spec: the comparison target of the alpha-beta
equivalence property, "the result of an unpruned full-depth minimax
search" (negamax without alpha-beta pruning). Same base cases and the
same best-set tracking as minimax, with the window and the break removed:
loop body over the remaining moves. -/
def npLoop (s : TicTacToe) (rec : TicTacToe → MMResult) :
    List Nat → MMResult → MMResult
  | [], best => best
  | m :: rest, best =>
      let r := rec (play s m).2
      let value := XInt.neg r.value
      let best' :=
        if XInt.le best.value value then
          if XInt.lt best.value value then { value := value, moves := some [m] }
          else { value := best.value, moves := some (best.moves.getD [] ++ [m]) }
        else best
      npLoop s rec rest best'

/-- Modelled from the spec: unpruned negamax at the same depth (see
npLoop). -/
def negamaxPlain (s : TicTacToe) (depth : Nat) : MMResult :=
  if s.isWin then { value := XInt.fin (-10), moves := none }
  else if s.isDraw then { value := XInt.fin 0, moves := none }
  else
    match depth with
    | 0 => { value := XInt.fin 0, moves := none }
    | d + 1 =>
        npLoop s (fun s' => negamaxPlain s' d) (validMoves s)
          { value := XInt.negInf, moves := none }

/-- Outcome of a JavaScript call: either a TypeError escapes, or the call
returns normally (none models the value undefined). -/
inductive JSResult where
  | thrown
  | value (v : Option Nat)
deriving DecidableEq, Repr

/-- goodMove(depth): reads the moves list of the root full-window search
and returns moves[Math.floor(Math.random() * moves.length)]. When the
result has no moves property the length read throws a TypeError. For a
nonempty list the index is an arbitrary element of 0..length-1, modelled
by the draw pick modulo the length; for an empty list the index is 0 and
the read yields undefined (get? on the empty list is none either way). -/
def goodMove (s : TicTacToe) (depth : Nat) (pick : Nat) : JSResult :=
  match (minimax s depth XInt.negInf XInt.posInf).moves with
  | none => JSResult.thrown
  | some l => JSResult.value l[pick % l.length]?

/-- The states reachable from a fresh game by play and takeBack (both
return the unchanged state on failure, so the failing calls add nothing). -/
inductive Reachable : TicTacToe → Prop where
  | init : Reachable TicTacToe.new
  | play (s : TicTacToe) (m : Nat) (h : Reachable s) : Reachable (play s m).2
  | takeBack (s : TicTacToe) (h : Reachable s) : Reachable (takeBack s).2

/-- Replay a list of moves from the fresh state. -/
def stateOf (ms : List Nat) : TicTacToe :=
  ms.foldl (fun s m => (play s m).2) TicTacToe.new

/-- A reachable won state: player one fills the top row. -/
def wonState : TicTacToe := stateOf [0, 3, 1, 4, 2]

/-- The reachable state exhibiting the pruning defect of C1: after the
plays 0, 1, 2, 3, 4, 6 the board is 1 2 1 / 2 1 0 / 2 0 0 and player one
is to move with an immediate win at cell 8. -/
def c1State : TicTacToe := stateOf [0, 1, 2, 3, 4, 6]

/-! ### The reachability invariant -/

/-- Invariant of every reachable state: the board has 9 cells, each cell
is 0, 1 or 2, the history entries are distinct board indices, the cell at
history entry k holds the mark 1 + k % 2 of the player who made the k-th
move, every non-empty cell is listed in the history, and the isDraw flag
agrees with the formula play maintains. -/
def StateInv (s : TicTacToe) : Prop :=
  s.board.length = 9 ∧
  (∀ c ∈ s.board, c ≤ 2) ∧
  (∀ m ∈ s.moves, m < 9) ∧
  s.moves.Nodup ∧
  (∀ k, (hk : k < s.moves.length) → s.board[s.moves[k]]? = some (1 + k % 2)) ∧
  (∀ i, i < 9 → s.board[i]? ≠ some 0 → i ∈ s.moves) ∧
  (s.isDraw = (!s.isWin && s.moves.length == 9))

theorem play_of_fail (s : TicTacToe) (m : Nat)
    (h : s.board[m]? ≠ some 0 ∨ s.isWin = true) : play s m = (false, s) := by
  unfold play
  rw [if_pos h]

theorem play_snd_of_succ (s : TicTacToe) (m : Nat)
    (h0 : s.board[m]? = some 0) (hw : s.isWin = false) :
    (play s m).2 =
      { board := s.board.set m (turn s), moves := s.moves ++ [m],
        isWin := winRegexTest (boardString (s.board.set m (turn s))),
        isDraw := !winRegexTest (boardString (s.board.set m (turn s))) &&
          ((s.moves ++ [m]).length == (s.board.set m (turn s)).length) } := by
  unfold play
  rw [if_neg]
  simp [h0, hw]

theorem play_fst_true_iff (s : TicTacToe) (m : Nat) :
    (play s m).1 = true ↔ (s.board[m]? = some 0 ∧ s.isWin = false) := by
  unfold play
  by_cases h : s.board[m]? ≠ some 0 ∨ s.isWin = true
  · rw [if_pos h]
    constructor
    · intro hfalse
      simp at hfalse
    · intro ⟨h0, hw⟩
      rcases h with h | h
      · exact absurd h0 h
      · rw [hw] at h
        simp at h
  · rw [if_neg h]
    push_neg at h
    obtain ⟨h0, hw⟩ := h
    simp only [true_iff]
    exact ⟨h0, by simpa using hw⟩

theorem takeBack_of_none (s : TicTacToe) (h : s.moves.getLast? = none) :
    takeBack s = (false, s) := by
  unfold takeBack
  rw [h]

theorem takeBack_of_some (s : TicTacToe) (m : Nat) (h : s.moves.getLast? = some m) :
    takeBack s =
      (true, { board := s.board.set m 0, moves := s.moves.dropLast,
               isWin := false, isDraw := false }) := by
  unfold takeBack
  rw [h]

/-- A history entry points at a non-empty cell. -/
theorem mem_moves_cell_ne (s : TicTacToe)
    (hmark : ∀ k, (hk : k < s.moves.length) → s.board[s.moves[k]]? = some (1 + k % 2))
    (m : Nat) (hm : m ∈ s.moves) : s.board[m]? ≠ some 0 := by
  obtain ⟨⟨k, hk⟩, rfl⟩ := List.mem_iff_get.mp hm
  rw [List.get_eq_getElem, hmark k hk]
  intro h
  exact absurd (Option.some.inj h) (by omega)

/-- A nodup history of board indices has at most 9 entries. -/
theorem moves_length_le (l : List Nat) (hnd : l.Nodup) (h9 : ∀ m ∈ l, m < 9) :
    l.length ≤ 9 := by
  have hsub : l.toFinset ⊆ Finset.range 9 := by
    intro x hx
    rw [Finset.mem_range]
    exact h9 x (List.mem_toFinset.mp hx)
  have := Finset.card_le_card hsub
  rwa [List.toFinset_card_of_nodup hnd, Finset.card_range] at this

theorem StateInv_new : StateInv TicTacToe.new := by
  refine ⟨rfl, ?_, ?_, ?_, ?_, ?_, rfl⟩
  · intro c hc
    rw [List.eq_of_mem_replicate hc]
    omega
  · intro m hm
    simp [TicTacToe.new] at hm
  · exact List.nodup_nil
  · intro k hk
    simp [TicTacToe.new] at hk
  · intro i hi h
    exfalso
    apply h
    show (List.replicate 9 0)[i]? = some 0
    rw [List.getElem?_eq_getElem (by simpa using hi), List.getElem_replicate]

theorem StateInv_play (s : TicTacToe) (m : Nat) (h : StateInv s) :
    StateInv (play s m).2 := by
  obtain ⟨hlen, hcell, hm9, hnd, hmark, hmem, hdraw⟩ := h
  by_cases hc : s.board[m]? = some 0 ∧ s.isWin = false
  · obtain ⟨h0, hw⟩ := hc
    have hmlt : m < s.board.length := by
      rcases List.getElem?_eq_some.mp h0 with ⟨hlt, _⟩
      exact hlt
    have hmnotin : m ∉ s.moves := fun hin => mem_moves_cell_ne s hmark m hin h0
    have hturn2 : turn s ≤ 2 := by
      unfold turn
      have := Nat.mod_lt s.moves.length (show 0 < 2 by omega)
      omega
    rw [play_snd_of_succ s m h0 hw]
    refine ⟨?_, ?_, ?_, ?_, ?_, ?_, ?_⟩ <;> dsimp only
    · simpa using hlen
    · intro c hcmem
      rcases List.mem_or_eq_of_mem_set hcmem with hmm | rfl
      · exact hcell c hmm
      · exact hturn2
    · intro x hx
      rcases List.mem_append.mp hx with hxx | hxx
      · exact hm9 x hxx
      · rw [List.mem_singleton.mp hxx]
        omega
    · refine List.Nodup.append hnd (List.nodup_singleton m) ?_
      intro x hx hx'
      rw [List.mem_singleton.mp hx'] at hx
      exact hmnotin hx
    · intro k hk
      rw [List.length_append, List.length_singleton] at hk
      rcases Nat.lt_or_ge k s.moves.length with hlt | hge
      · have he : (s.moves ++ [m])[k] = s.moves[k] := List.getElem_append_left hlt
        rw [he]
        have hne : s.moves[k] ≠ m := by
          intro heq
          have := hmark k hlt
          rw [heq, h0] at this
          exact absurd (Option.some.inj this) (by omega)
        rw [List.getElem?_set_ne (Ne.symm hne)]
        exact hmark k hlt
      · have hkeq : k = s.moves.length := by omega
        have he : (s.moves ++ [m])[k] = m := by
          rw [List.getElem_append_right hge]
          simp [hkeq]
        rw [he, List.getElem?_set_self hmlt, hkeq]
        rfl
    · intro i hi hne
      by_cases him : i = m
      · refine List.mem_append.mpr (Or.inr ?_)
        rw [him]
        exact List.mem_singleton_self m
      · rw [List.getElem?_set_ne (Ne.symm him)] at hne
        exact List.mem_append.mpr (Or.inl (hmem i hi hne))
    · rw [List.length_set, hlen]
  · rw [play_of_fail s m ?_]
    · exact ⟨hlen, hcell, hm9, hnd, hmark, hmem, hdraw⟩
    · rcases Bool.eq_false_or_eq_true s.isWin with hw | hw
      · right
        exact hw
      · left
        intro h0
        exact hc ⟨h0, hw⟩

theorem StateInv_takeBack (s : TicTacToe) (h : StateInv s) :
    StateInv (takeBack s).2 := by
  obtain ⟨hlen, hcell, hm9, hnd, hmark, hmem, hdraw⟩ := h
  cases hL : s.moves.getLast? with
  | none =>
      rw [takeBack_of_none s hL]
      exact ⟨hlen, hcell, hm9, hnd, hmark, hmem, hdraw⟩
  | some m =>
    obtain ⟨l', hrep⟩ := List.getLast?_eq_some_iff.mp hL
    have hminl : m ∈ s.moves := by
      rw [hrep]
      exact List.mem_append.mpr (Or.inr (List.mem_singleton_self m))
    have hm9' : m < 9 := hm9 m hminl
    have hndl : l'.Nodup := List.Nodup.of_append_left (hrep ▸ hnd)
    have hdisj : ∀ x ∈ l', x ≠ m := by
      intro x hx heq
      refine List.disjoint_of_nodup_append (hrep ▸ hnd) hx ?_
      rw [heq]
      exact List.mem_singleton_self m
    have hdl : s.moves.dropLast = l' := by
      rw [hrep, List.dropLast_concat]
    have hlenle : s.moves.length ≤ 9 := moves_length_le s.moves hnd hm9
    have hl'len : l'.length + 1 = s.moves.length := by
      rw [hrep, List.length_append, List.length_singleton]
    rw [takeBack_of_some s m hL]
    refine ⟨?_, ?_, ?_, ?_, ?_, ?_, ?_⟩ <;> dsimp only
    · simpa using hlen
    · intro c hcmem
      rcases List.mem_or_eq_of_mem_set hcmem with hmm | rfl
      · exact hcell c hmm
      · omega
    · intro x hx
      rw [hdl] at hx
      refine hm9 x ?_
      rw [hrep]
      exact List.mem_append.mpr (Or.inl hx)
    · rw [hdl]
      exact hndl
    · intro k hk
      have hkl : k < l'.length := by
        rw [hdl] at hk
        exact hk
      have hkm : k < s.moves.length := by omega
      rw [List.getElem_dropLast s.moves k hk]
      have he : s.moves[k] = l'[k] := by
        rw [List.getElem_of_eq hrep hkm]
        exact List.getElem_append_left hkl
      have hne : s.moves[k] ≠ m := by
        rw [he]
        exact hdisj _ (List.getElem_mem hkl)
      rw [List.getElem?_set_ne (Ne.symm hne)]
      exact hmark k hkm
    · intro i hi hne
      rw [hdl]
      by_cases him : i = m
      · exfalso
        apply hne
        rw [him]
        exact List.getElem?_set_self (by omega)
      · rw [List.getElem?_set_ne (Ne.symm him)] at hne
        have hin := hmem i hi hne
        rw [hrep] at hin
        rcases List.mem_append.mp hin with hin | hin
        · exact hin
        · exact absurd (List.mem_singleton.mp hin) him
    · rw [hdl]
      have hne9 : l'.length ≠ 9 := by omega
      simp [hne9]

theorem reachable_inv (s : TicTacToe) (h : Reachable s) : StateInv s := by
  induction h with
  | init => exact StateInv_new
  | play s' m _ ih => exact StateInv_play s' m ih
  | takeBack s' _ ih => exact StateInv_takeBack s' ih

/-! ### The win regex equals the 8-triple enumeration -/

/-- One backreference triple over digit characters of cells 0..2 equals
the corresponding test on the cell values. -/
theorem char_trip_eq (x y z : Nat) (hx : x ≤ 2) (hy : y ≤ 2) (hz : z ≤ 2) :
    (((Char.ofNat (48+x) == '1' || Char.ofNat (48+x) == '2') &&
      (Char.ofNat (48+y) == Char.ofNat (48+x))) && (Char.ofNat (48+z) == Char.ofNat (48+x)))
    = (((x != 0) && (x == y)) && (y == z)) := by
  interval_cases x <;> interval_cases y <;> interval_cases z <;> decide

/-- On a 9-cell board whose cells are all 0, 1 or 2, the regular
expression test over the serialized board and the explicit enumeration of
the 8 winning triples agree. -/
theorem winRegexTest_eq_winByTriples (b : List Nat) (hl : b.length = 9)
    (hc : ∀ c ∈ b, c ≤ 2) : winRegexTest (boardString b) = winByTriples b := by
  rcases b with _ | ⟨c0, _ | ⟨c1, _ | ⟨c2, _ | ⟨c3, _ | ⟨c4, _ | ⟨c5, _ | ⟨c6, _ | ⟨c7, _ | ⟨c8, _ | ⟨c9, t⟩⟩⟩⟩⟩⟩⟩⟩⟩⟩ <;> simp at hl
  have h0 : c0 ≤ 2 := hc c0 (by simp)
  have h1 : c1 ≤ 2 := hc c1 (by simp)
  have h2 : c2 ≤ 2 := hc c2 (by simp)
  have h3 : c3 ≤ 2 := hc c3 (by simp)
  have h4 : c4 ≤ 2 := hc c4 (by simp)
  have h5 : c5 ≤ 2 := hc c5 (by simp)
  have h6 : c6 ≤ 2 := hc c6 (by simp)
  have h7 : c7 ≤ 2 := hc c7 (by simp)
  have h8 : c8 ≤ 2 := hc c8 (by simp)
  have hL : winRegexTest (boardString [c0,c1,c2,c3,c4,c5,c6,c7,c8]) =
      (((((((Char.ofNat (48+c0) == '1' || Char.ofNat (48+c0) == '2') && (Char.ofNat (48+c1) == Char.ofNat (48+c0))) && (Char.ofNat (48+c2) == Char.ofNat (48+c0))) ||
         ((((Char.ofNat (48+c3) == '1' || Char.ofNat (48+c3) == '2') && (Char.ofNat (48+c4) == Char.ofNat (48+c3))) && (Char.ofNat (48+c5) == Char.ofNat (48+c3))) ||
          ((((Char.ofNat (48+c6) == '1' || Char.ofNat (48+c6) == '2') && (Char.ofNat (48+c7) == Char.ofNat (48+c6))) && (Char.ofNat (48+c8) == Char.ofNat (48+c6))) || false))) ||
        ((((Char.ofNat (48+c0) == '1' || Char.ofNat (48+c0) == '2') && (Char.ofNat (48+c3) == Char.ofNat (48+c0))) && (Char.ofNat (48+c6) == Char.ofNat (48+c0))) ||
         ((((Char.ofNat (48+c1) == '1' || Char.ofNat (48+c1) == '2') && (Char.ofNat (48+c4) == Char.ofNat (48+c1))) && (Char.ofNat (48+c7) == Char.ofNat (48+c1))) ||
          ((((Char.ofNat (48+c2) == '1' || Char.ofNat (48+c2) == '2') && (Char.ofNat (48+c5) == Char.ofNat (48+c2))) && (Char.ofNat (48+c8) == Char.ofNat (48+c2))) || false)))) ||
       (((Char.ofNat (48+c0) == '1' || Char.ofNat (48+c0) == '2') && (Char.ofNat (48+c4) == Char.ofNat (48+c0))) && (Char.ofNat (48+c8) == Char.ofNat (48+c0)))) ||
      (((Char.ofNat (48+c2) == '1' || Char.ofNat (48+c2) == '2') && (Char.ofNat (48+c4) == Char.ofNat (48+c2))) && (Char.ofNat (48+c6) == Char.ofNat (48+c2)))) := rfl
  have hR : winByTriples [c0,c1,c2,c3,c4,c5,c6,c7,c8] =
      ((((c0 != 0) && (c0 == c1)) && (c1 == c2)) ||
       ((((c3 != 0) && (c3 == c4)) && (c4 == c5)) ||
        ((((c6 != 0) && (c6 == c7)) && (c7 == c8)) ||
         ((((c0 != 0) && (c0 == c3)) && (c3 == c6)) ||
          ((((c1 != 0) && (c1 == c4)) && (c4 == c7)) ||
           ((((c2 != 0) && (c2 == c5)) && (c5 == c8)) ||
            ((((c0 != 0) && (c0 == c4)) && (c4 == c8)) ||
             ((((c2 != 0) && (c2 == c4)) && (c4 == c6)) || false)))))))) := rfl
  rw [hL, hR]
  simp only [Bool.or_false, Bool.or_assoc]
  rw [char_trip_eq c0 c1 c2 h0 h1 h2, char_trip_eq c3 c4 c5 h3 h4 h5,
    char_trip_eq c6 c7 c8 h6 h7 h8, char_trip_eq c0 c3 c6 h0 h3 h6,
    char_trip_eq c1 c4 c7 h1 h4 h7, char_trip_eq c2 c5 c8 h2 h5 h8,
    char_trip_eq c0 c4 c8 h0 h4 h8, char_trip_eq c2 c4 c6 h2 h4 h6]

/-- Writing back the value a cell already holds leaves the board
unchanged. -/
theorem set_of_getElem?_eq (l : List Nat) (i : Nat) (a : Nat) (h : l[i]? = some a) :
    l.set i a = l := by
  apply List.ext_getElem?
  intro n
  by_cases hn : n = i
  · subst hn
    rcases List.getElem?_eq_some.mp h with ⟨hlt, _⟩
    rw [List.getElem?_set_self hlt, h]
  · rw [List.getElem?_set_ne (Ne.symm hn)]

/-! ### Claim theorems: state operations -/

/-- C3: on every reachable non-terminal state, a successful play followed
immediately by takeBack restores the whole state (board, history, isWin,
isDraw) exactly. -/
theorem play_takeBack_roundtrip (s : TicTacToe) (m : Nat) (hs : Reachable s)
    (hw : s.isWin = false) (hd : s.isDraw = false)
    (h : (play s m).1 = true) : takeBack (play s m).2 = (true, s) := by
  obtain ⟨h0, _⟩ := (play_fst_true_iff s m).mp h
  rw [play_snd_of_succ s m h0 hw]
  rw [takeBack_of_some _ m (by exact List.getLast?_concat _)]
  obtain ⟨b, mv, w, d⟩ := s
  simp only at h0 hw hd ⊢
  subst hw
  subst hd
  rw [List.set_set, List.dropLast_concat, set_of_getElem?_eq b m 0 h0]

/-- C3 witness: from the fresh state, play 4 then takeBack restores the
fresh state. -/
theorem play_takeBack_roundtrip_witness :
    takeBack (play TicTacToe.new 4).2 = (true, TicTacToe.new) :=
  play_takeBack_roundtrip TicTacToe.new 4 Reachable.init (by decide) (by decide)
    (by decide)

/-- C9: takeBack fails exactly when the history is empty and leaves the
state unchanged then; on success (getLast? returns the last entry) it pops
that entry, clears its cell, and unconditionally clears both flags, so the
resulting state is in progress even when the state before was won or
drawn. -/
theorem takeBack_behavior (s : TicTacToe) :
    ((takeBack s).1 = false ↔ s.moves = []) ∧
    ((takeBack s).1 = false → (takeBack s).2 = s) ∧
    (∀ m, s.moves.getLast? = some m →
      (takeBack s).2 = { board := s.board.set m 0, moves := s.moves.dropLast,
                         isWin := false, isDraw := false }) := by
  cases hL : s.moves.getLast? with
  | none =>
      rw [takeBack_of_none s hL]
      refine ⟨?_, fun _ => rfl, ?_⟩
      · simp only [true_iff]
        exact List.getLast?_eq_none_iff.mp hL
      · intro m hm
        cases hm
  | some m =>
      rw [takeBack_of_some s m hL]
      refine ⟨?_, ?_, ?_⟩
      · constructor
        · intro hfalse
          cases hfalse
        · intro hnil
          rw [hnil] at hL
          cases hL
      · intro hfalse
        cases hfalse
      · intro m' hm'
        cases hm'
        rfl

/-- C9 witness: on the state after one play from fresh, takeBack succeeds,
pops the move and clears the flags. -/
theorem takeBack_behavior_witness :
    ((takeBack (play TicTacToe.new 4).2).1 = false ↔ (play TicTacToe.new 4).2.moves = []) ∧
    (takeBack (play TicTacToe.new 4).2).2 =
      { board := (play TicTacToe.new 4).2.board.set 4 0,
        moves := (play TicTacToe.new 4).2.moves.dropLast,
        isWin := false, isDraw := false } :=
  ⟨(takeBack_behavior (play TicTacToe.new 4).2).1,
   (takeBack_behavior (play TicTacToe.new 4).2).2.2 4 (by decide)⟩

/-- C10: on every reachable state, play with an index outside 0..8 fails
and leaves the state unchanged (the out-of-range cell read is undefined,
which is not an empty cell). -/
theorem play_out_of_range (s : TicTacToe) (m : Nat) (hs : Reachable s)
    (hm : 9 ≤ m) : play s m = (false, s) := by
  obtain ⟨hlen, _⟩ := reachable_inv s hs
  apply play_of_fail
  left
  rw [List.getElem?_eq_none (by omega)]
  intro hcon
  cases hcon

/-- C10 witness: play 9 on the fresh state fails and changes nothing. -/
theorem play_out_of_range_witness : play TicTacToe.new 9 = (false, TicTacToe.new) :=
  play_out_of_range TicTacToe.new 9 Reachable.init (by omega)

/-- C5: on every reachable state and cell index in 0..8, play fails
exactly when the cell is non-empty or the game is already won, and a
failing play leaves the state unchanged. -/
theorem play_failure_iff (s : TicTacToe) (m : Nat) (hs : Reachable s)
    (hm : m < 9) :
    ((play s m).1 = false ↔ (s.board.getD m 0 ≠ 0 ∨ s.isWin = true)) ∧
    ((play s m).1 = false → (play s m).2 = s) := by
  obtain ⟨hlen, _⟩ := reachable_inv s hs
  have hlt : m < s.board.length := by omega
  have hsome : s.board[m]? = some s.board[m] := List.getElem?_eq_getElem hlt
  have hgetD : s.board.getD m 0 = s.board[m] := by
    rw [List.getD_eq_getElem?_getD, hsome]
    rfl
  constructor
  · constructor
    · intro hf
      by_contra hcon
      push_neg at hcon
      obtain ⟨hc0, hwne⟩ := hcon
      rw [hgetD] at hc0
      have hplay : (play s m).1 = true := (play_fst_true_iff s m).mpr
        ⟨by rw [hsome, hc0], by simpa using hwne⟩
      rw [hf] at hplay
      cases hplay
    · intro hcase
      have hfail : play s m = (false, s) := by
        apply play_of_fail
        rcases hcase with hc | hc
        · left
          rw [hsome]
          intro heq
          exact hc (by rw [hgetD]; exact Option.some.inj heq)
        · right
          exact hc
      rw [hfail]
  · intro hf
    by_cases hc : s.board[m]? = some 0 ∧ s.isWin = false
    · have := (play_fst_true_iff s m).mpr hc
      rw [hf] at this
      cases this
    · have hfail : play s m = (false, s) := by
        apply play_of_fail
        rcases Bool.eq_false_or_eq_true s.isWin with hw | hw
        · right
          exact hw
        · left
          intro h0
          exact hc ⟨h0, hw⟩
      rw [hfail]

/-- C5 witness: on the state with cell 4 occupied, the failure
characterization holds (play 4 fails there because the cell is taken). -/
theorem play_failure_iff_witness :
    ((play (play TicTacToe.new 4).2 4).1 = false ↔
      ((play TicTacToe.new 4).2.board.getD 4 0 ≠ 0 ∨ (play TicTacToe.new 4).2.isWin = true)) ∧
    ((play (play TicTacToe.new 4).2 4).1 = false →
      (play (play TicTacToe.new 4).2 4).2 = (play TicTacToe.new 4).2) :=
  play_failure_iff (play TicTacToe.new 4).2 4
    (Reachable.play TicTacToe.new 4 Reachable.init) (by omega)

/-- C7: on every reachable state, isWin and isDraw are never both true,
and isDraw holds exactly when isWin is false and the history has length
9. -/
theorem win_draw_exclusive (s : TicTacToe) (hs : Reachable s) :
    ¬(s.isWin = true ∧ s.isDraw = true) ∧
    (s.isDraw = true ↔ (s.isWin = false ∧ s.moves.length = 9)) := by
  obtain ⟨_, _, _, _, _, _, hdraw⟩ := reachable_inv s hs
  constructor
  · rintro ⟨hw, hd⟩
    rw [hdraw, hw] at hd
    simp at hd
  · rw [hdraw]
    constructor
    · intro h
      simpa using h
    · intro ⟨hw, hl⟩
      simp [hw, hl]

/-- C7 witness: the fresh state satisfies both parts. -/
theorem win_draw_exclusive_witness :
    ¬(TicTacToe.new.isWin = true ∧ TicTacToe.new.isDraw = true) ∧
    (TicTacToe.new.isDraw = true ↔
      (TicTacToe.new.isWin = false ∧ TicTacToe.new.moves.length = 9)) :=
  win_draw_exclusive TicTacToe.new Reachable.init

/-- C8: on every reachable state, exactly moves.length of the 9 cells are
non-empty, the non-empty cells are exactly the history entries (which are
distinct), and the cell at history entry k holds the mark 1 + k % 2. -/
theorem board_matches_history (s : TicTacToe) (hs : Reachable s) :
    ((List.range 9).filter (fun i => decide (s.board.getD i 0 ≠ 0))).length = s.moves.length ∧
    s.moves.Nodup ∧
    (∀ i, i < 9 → (s.board.getD i 0 ≠ 0 ↔ i ∈ s.moves)) ∧
    (∀ k, (hk : k < s.moves.length) → s.board.getD s.moves[k] 0 = 1 + k % 2) := by
  obtain ⟨hlen, hcell, hm9, hnd, hmark, hmem, hdraw⟩ := reachable_inv s hs
  have hconv : ∀ i, (hi : i < s.board.length) →
      s.board.getD i 0 = s.board[i] ∧ s.board[i]? = some s.board[i] := by
    intro i hi
    have hsome : s.board[i]? = some s.board[i] := List.getElem?_eq_getElem hi
    refine ⟨?_, hsome⟩
    rw [List.getD_eq_getElem?_getD, hsome]
    rfl
  have hiff : ∀ i, i < 9 → (s.board.getD i 0 ≠ 0 ↔ i ∈ s.moves) := by
    intro i hi
    obtain ⟨hgd, hsome⟩ := hconv i (by omega)
    constructor
    · intro hne
      apply hmem i hi
      rw [hsome]
      intro heq
      exact hne (by rw [hgd]; exact Option.some.inj heq)
    · intro hin
      obtain ⟨⟨k, hk⟩, hg⟩ := List.mem_iff_get.mp hin
      have hmk := hmark k hk
      have hieq : s.moves[k] = i := hg
      rw [hieq] at hmk
      rw [hsome] at hmk
      rw [hgd, Option.some.inj hmk]
      omega
  refine ⟨?_, hnd, hiff, ?_⟩
  · have hpnd : ((List.range 9).filter (fun i => decide (s.board.getD i 0 ≠ 0))).Nodup :=
      List.Nodup.filter _ (List.nodup_range 9)
    have hperm : ((List.range 9).filter (fun i => decide (s.board.getD i 0 ≠ 0))).Perm s.moves := by
      rw [List.perm_ext_iff_of_nodup hpnd hnd]
      intro a
      rw [List.mem_filter, List.mem_range]
      constructor
      · intro ⟨ha9, hane⟩
        exact (hiff a ha9).mp (by simpa using hane)
      · intro ha
        have ha9 : a < 9 := hm9 a ha
        exact ⟨ha9, by simpa using (hiff a ha9).mpr ha⟩
    exact hperm.length_eq
  · intro k hk
    have hk9 : s.moves[k] < 9 := hm9 _ (List.getElem_mem hk)
    obtain ⟨hgd, hsome⟩ := hconv s.moves[k] (by omega)
    have hmk := hmark k hk
    rw [hsome] at hmk
    rw [hgd, Option.some.inj hmk]

/-- C8 witness: the invariant instantiated at the fresh state. -/
theorem board_matches_history_witness :
    ((List.range 9).filter (fun i => decide (TicTacToe.new.board.getD i 0 ≠ 0))).length = TicTacToe.new.moves.length ∧
    TicTacToe.new.moves.Nodup ∧
    (∀ i, i < 9 → (TicTacToe.new.board.getD i 0 ≠ 0 ↔ i ∈ TicTacToe.new.moves)) ∧
    (∀ k, (hk : k < TicTacToe.new.moves.length) → TicTacToe.new.board.getD TicTacToe.new.moves[k] 0 = 1 + k % 2) :=
  board_matches_history TicTacToe.new Reachable.init

/-- C4: after every successful play on a reachable state, the isWin flag
equals the explicit enumeration of the 8 winning triples on the new board,
and on that board the regular expression test and the enumeration are
behaviorally identical. -/
theorem play_win_detection (s : TicTacToe) (m : Nat) (hs : Reachable s)
    (h : (play s m).1 = true) :
    ((play s m).2.isWin = winByTriples (play s m).2.board) ∧
    winRegexTest (boardString (play s m).2.board) = winByTriples (play s m).2.board := by
  obtain ⟨h0, hw⟩ := (play_fst_true_iff s m).mp h
  obtain ⟨hlen', hcell', _⟩ := StateInv_play s m (reachable_inv s hs)
  have heq := winRegexTest_eq_winByTriples (play s m).2.board hlen' hcell'
  refine ⟨?_, heq⟩
  rw [play_snd_of_succ s m h0 hw] at heq ⊢
  exact heq

/-- C4 witness: the first play on the fresh board. -/
theorem play_win_detection_witness :
    ((play TicTacToe.new 0).2.isWin = winByTriples (play TicTacToe.new 0).2.board) ∧
    winRegexTest (boardString (play TicTacToe.new 0).2.board) =
      winByTriples (play TicTacToe.new 0).2.board :=
  play_win_detection TicTacToe.new 0 Reachable.init (by decide)

/-! ### Claim theorems: the search -/

/-- C2 counterexample: on the reachable won state above, goodMove does not
return the value undefined: the minimax result of a terminal state has no
moves property and reading its length throws a TypeError. -/
theorem goodMove_terminal_cex :
    Reachable wonState ∧ wonState.isWin = true ∧
    goodMove wonState 1 0 = JSResult.thrown ∧
    goodMove wonState 1 0 ≠ JSResult.value none := by
  refine ⟨?_, by decide, by decide, by decide⟩
  exact Reachable.play _ 2 (Reachable.play _ 4 (Reachable.play _ 1
    (Reachable.play _ 3 (Reachable.play _ 0 Reachable.init))))

/-- C2 amended: on a won or drawn state, or one without valid moves (for
any depth and any random draw), goodMove throws a TypeError rather than
returning: the minimax result carries no moves list, and reading the
length of undefined throws. play and takeBack never throw; they report
failure by returning false. -/
theorem goodMove_terminal_throws (s : TicTacToe) (depth pick : Nat)
    (h : s.isWin = true ∨ s.isDraw = true ∨ validMoves s = []) :
    goodMove s depth pick = JSResult.thrown := by
  unfold goodMove
  have hv : (s.isWin = true ∨ s.isDraw = true) ∨ validMoves s = [] := by
    rcases h with hc | hc | hc
    · exact Or.inl (Or.inl hc)
    · exact Or.inl (Or.inr hc)
    · exact Or.inr hc
  have hnone : (minimax s depth XInt.negInf XInt.posInf).moves = none := by
    cases depth with
    | zero =>
        by_cases hw : s.isWin = true
        · simp [minimax, hw]
        · by_cases hd : s.isDraw = true
          · simp [minimax, hw, hd]
          · simp [minimax, hw, hd]
    | succ d =>
        by_cases hw : s.isWin = true
        · simp [minimax, hw]
        · by_cases hd : s.isDraw = true
          · simp [minimax, hw, hd]
          · have hvm : validMoves s = [] := by
              rcases hv with (hc | hc) | hc
              · exact absurd hc hw
              · exact absurd hc hd
              · exact hc
            simp [minimax, hw, hd, hvm, mmLoop]
  rw [hnone]

/-- C2 amended witness: the won state, depth 1, draw 0. -/
theorem goodMove_terminal_throws_witness :
    goodMove wonState 1 0 = JSResult.thrown :=
  goodMove_terminal_throws wonState 1 0 (Or.inl (by decide))

/-! ### Search lemmas for C6 -/

theorem XInt.le_posInf (a : XInt) : XInt.le a XInt.posInf = true := by
  cases a <;> rfl

theorem XInt.neg_posInf : XInt.neg XInt.posInf = XInt.negInf := rfl

theorem XInt.neg_negInf : XInt.neg XInt.negInf = XInt.posInf := rfl

theorem XInt.negInf_le (a : XInt) : XInt.le XInt.negInf a = true := by
  cases a <;> rfl

theorem XInt.posInf_le_iff (a : XInt) : XInt.le XInt.posInf a = true ↔ a = XInt.posInf := by
  cases a <;> simp [XInt.le]

theorem XInt.le_negInf_iff (a : XInt) : XInt.le a XInt.negInf = true ↔ a = XInt.negInf := by
  cases a <;> simp [XInt.le]

theorem XInt.neg_eq_negInf_iff (a : XInt) : XInt.neg a = XInt.negInf ↔ a = XInt.posInf := by
  cases a <;> simp [XInt.neg]

theorem XInt.neg_eq_posInf_iff (a : XInt) : XInt.neg a = XInt.posInf ↔ a = XInt.negInf := by
  cases a <;> simp [XInt.neg]

/-- A value of +Infinity always triggers the break: alpha becomes
+Infinity, which is never below beta. -/
theorem break_of_value_posInf (alpha beta v : XInt) (hv : v = XInt.posInf) :
    XInt.le beta (XInt.max alpha v) = true := by
  subst hv
  unfold XInt.max
  rw [if_pos (XInt.le_posInf alpha)]
  exact XInt.le_posInf beta

/-- The loop never returns value +Infinity when its running best is not
+Infinity: a +Infinity move value breaks before it can be tracked. -/
theorem mmLoop_value_ne_posInf (s : TicTacToe) (rec : TicTacToe → XInt → XInt → MMResult)
    (ms : List Nat) : ∀ alpha beta best, best.value ≠ XInt.posInf →
    (mmLoop s rec ms alpha beta best).value ≠ XInt.posInf := by
  induction ms with
  | nil =>
      intro alpha beta best hb
      simpa [mmLoop] using hb
  | cons m rest ih =>
      intro alpha beta best hb
      simp only [mmLoop]
      by_cases hbrk : XInt.le beta (XInt.max alpha
          (XInt.neg (rec (play s m).2 (XInt.neg beta) (XInt.neg alpha)).value)) = true
      · rw [if_pos hbrk]
        exact hb
      · rw [if_neg hbrk]
        apply ih
        by_cases hge : XInt.le best.value
            (XInt.neg (rec (play s m).2 (XInt.neg beta) (XInt.neg alpha)).value) = true
        · rw [if_pos hge]
          by_cases hgt : XInt.lt best.value
              (XInt.neg (rec (play s m).2 (XInt.neg beta) (XInt.neg alpha)).value) = true
          · rw [if_pos hgt]
            intro hvp
            exact hbrk (break_of_value_posInf _ _ _ hvp)
          · rw [if_neg hgt]
            exact hb
        · rw [if_neg hge]
          exact hb

/-- minimax never returns value +Infinity. -/
theorem minimax_value_ne_posInf (s : TicTacToe) (depth : Nat) (alpha beta : XInt) :
    (minimax s depth alpha beta).value ≠ XInt.posInf := by
  cases depth with
  | zero =>
      by_cases hw : s.isWin = true
      · simp [minimax, hw]
      · by_cases hd : s.isDraw = true
        · simp [minimax, hw, hd]
        · simp [minimax, hw, hd]
  | succ d =>
      by_cases hw : s.isWin = true
      · simp [minimax, hw]
      · by_cases hd : s.isDraw = true
        · simp [minimax, hw, hd]
        · simp only [minimax, hw, hd]
          apply mmLoop_value_ne_posInf
          intro hcon
          cases hcon

/-- The loop preserves a present, nonempty, well-scoped best-move list:
tracked moves come from the move list being iterated. -/
theorem mmLoop_moves_good (s : TicTacToe) (rec : TicTacToe → XInt → XInt → MMResult)
    (P : List Nat) (ms : List Nat) :
    ∀ alpha beta best, (∃ l, best.moves = some l ∧ l ≠ [] ∧ ∀ x ∈ l, x ∈ P) →
    (∀ x ∈ ms, x ∈ P) →
    ∃ l, (mmLoop s rec ms alpha beta best).moves = some l ∧ l ≠ [] ∧ ∀ x ∈ l, x ∈ P := by
  induction ms with
  | nil =>
      intro alpha beta best hb _
      simpa [mmLoop] using hb
  | cons m rest ih =>
      intro alpha beta best hb hms
      simp only [mmLoop]
      by_cases hbrk : XInt.le beta (XInt.max alpha
          (XInt.neg (rec (play s m).2 (XInt.neg beta) (XInt.neg alpha)).value)) = true
      · rw [if_pos hbrk]
        exact hb
      · rw [if_neg hbrk]
        apply ih _ _ _ ?_ (fun x hx => hms x (List.mem_cons_of_mem m hx))
        by_cases hge : XInt.le best.value
            (XInt.neg (rec (play s m).2 (XInt.neg beta) (XInt.neg alpha)).value) = true
        · rw [if_pos hge]
          by_cases hgt : XInt.lt best.value
              (XInt.neg (rec (play s m).2 (XInt.neg beta) (XInt.neg alpha)).value) = true
          · rw [if_pos hgt]
            refine ⟨[m], rfl, by simp, ?_⟩
            intro x hx
            rw [List.mem_singleton.mp hx]
            exact hms m (List.mem_cons_self m rest)
          · rw [if_neg hgt]
            obtain ⟨l, hl, hlne, hlP⟩ := hb
            refine ⟨l ++ [m], by rw [hl]; rfl, by simp, ?_⟩
            intro x hx
            rcases List.mem_append.mp hx with hx | hx
            · exact hlP x hx
            · rw [List.mem_singleton.mp hx]
              exact hms m (List.mem_cons_self m rest)
        · rw [if_neg hge]
          exact hb

/-- The loop never returns value -Infinity once the running best is above
it, provided the recursive evaluator never returns +Infinity. -/
theorem mmLoop_value_ne_negInf (s : TicTacToe) (rec : TicTacToe → XInt → XInt → MMResult)
    (hrec : ∀ s' a b, (rec s' a b).value ≠ XInt.posInf) (ms : List Nat) :
    ∀ alpha beta best, best.value ≠ XInt.negInf →
    (mmLoop s rec ms alpha beta best).value ≠ XInt.negInf := by
  induction ms with
  | nil =>
      intro alpha beta best hb
      simpa [mmLoop] using hb
  | cons m rest ih =>
      intro alpha beta best hb
      simp only [mmLoop]
      by_cases hbrk : XInt.le beta (XInt.max alpha
          (XInt.neg (rec (play s m).2 (XInt.neg beta) (XInt.neg alpha)).value)) = true
      · rw [if_pos hbrk]
        exact hb
      · rw [if_neg hbrk]
        apply ih
        by_cases hge : XInt.le best.value
            (XInt.neg (rec (play s m).2 (XInt.neg beta) (XInt.neg alpha)).value) = true
        · rw [if_pos hge]
          by_cases hgt : XInt.lt best.value
              (XInt.neg (rec (play s m).2 (XInt.neg beta) (XInt.neg alpha)).value) = true
          · rw [if_pos hgt]
            intro hvn
            exact hrec (play s m).2 (XInt.neg beta) (XInt.neg alpha)
              ((XInt.neg_eq_negInf_iff _).mp hvn)
          · rw [if_neg hgt]
            exact hb
        · rw [if_neg hge]
          exact hb

/-- A reachable state that is neither won nor drawn has an empty cell. -/
theorem validMoves_ne_nil (s : TicTacToe) (hs : Reachable s)
    (hw : s.isWin = false) (hd : s.isDraw = false) : validMoves s ≠ [] := by
  obtain ⟨hlen, hcell, hm9, hnd, hmark, hmem, hdraw⟩ := reachable_inv s hs
  have hle : s.moves.length ≤ 9 := moves_length_le _ hnd hm9
  have hlen9 : s.moves.length ≠ 9 := by
    intro h9
    rw [hw, h9] at hdraw
    rw [hd] at hdraw
    simp at hdraw
  intro hvnil
  have hall : ∀ i, i < 9 → i ∈ s.moves := by
    intro i hi
    apply hmem i hi
    intro h0
    have hin : i ∈ validMoves s := by
      unfold validMoves
      rw [hlen]
      refine List.mem_filter.mpr ⟨List.mem_range.mpr hi, ?_⟩
      simp [h0]
    rw [hvnil] at hin
    cases hin
  have hsub2 : Finset.range 9 ⊆ s.moves.toFinset := fun i hidx =>
    List.mem_toFinset.mpr (hall i (Finset.mem_range.mp hidx))
  have hcard := Finset.card_le_card hsub2
  rw [Finset.card_range, List.toFinset_card_of_nodup hnd] at hcard
  omega

/-- The full-window search on a reachable state never returns value
-Infinity: a non-terminal reachable state has a first valid move, the
first child is searched with the full window again, and its finite value
is tracked before any break can fire. -/
theorem minimax_full_value_ne_negInf (d : Nat) : ∀ s : TicTacToe, Reachable s →
    (minimax s d XInt.negInf XInt.posInf).value ≠ XInt.negInf := by
  induction d with
  | zero =>
      intro s hs
      by_cases hw : s.isWin = true
      · simp [minimax, hw]
      · by_cases hdr : s.isDraw = true <;> simp [minimax, hw, hdr]
  | succ d ih =>
      intro s hs
      by_cases hw : s.isWin = true
      · simp [minimax, hw]
      · by_cases hdr : s.isDraw = true
        · simp [minimax, hw, hdr]
        · have hv := validMoves_ne_nil s hs (by simpa using hw) (by simpa using hdr)
          obtain ⟨m, rest, hms⟩ : ∃ m rest, validMoves s = m :: rest := by
            cases hvm : validMoves s with
            | nil => exact absurd hvm hv
            | cons a t => exact ⟨a, t, rfl⟩
          simp only [minimax, hw, hdr, hms, if_false]
          simp only [Bool.false_eq_true, if_false, mmLoop, XInt.neg_posInf, XInt.neg_negInf]
          have hchild : (minimax (play s m).2 d XInt.negInf XInt.posInf).value ≠ XInt.negInf :=
            ih (play s m).2 (Reachable.play s m hs)
          have hchildp : (minimax (play s m).2 d XInt.negInf XInt.posInf).value ≠ XInt.posInf :=
            minimax_value_ne_posInf (play s m).2 d XInt.negInf XInt.posInf
          set v := XInt.neg (minimax (play s m).2 d XInt.negInf XInt.posInf).value with hvdef
          have hvp : v ≠ XInt.posInf := fun hc => hchild ((XInt.neg_eq_posInf_iff _).mp hc)
          have hvn : v ≠ XInt.negInf := fun hc => hchildp ((XInt.neg_eq_negInf_iff _).mp hc)
          have hmax : XInt.max XInt.negInf v = v := by
            unfold XInt.max
            rw [if_pos (XInt.negInf_le v)]
          have hbrk : ¬(XInt.le XInt.posInf (XInt.max XInt.negInf v) = true) := by
            rw [hmax]
            intro hc
            exact hvp ((XInt.posInf_le_iff v).mp hc)
          rw [if_neg hbrk]
          have hge : XInt.le XInt.negInf v = true := XInt.negInf_le v
          rw [if_pos hge]
          have hgt : XInt.lt XInt.negInf v = true := by
            unfold XInt.lt
            rw [Bool.not_eq_true']
            rw [Bool.eq_false_iff]
            intro hc
            exact hvn ((XInt.le_negInf_iff v).mp hc)
          rw [if_pos hgt]
          apply mmLoop_value_ne_negInf
          · intro s' a b
            exact minimax_value_ne_posInf s' d a b
          · intro hc
            exact hvn hc

/-- Unfolding one step of the full-window search on a reachable
non-terminal state: the first valid move is searched with the full window,
its finite value cannot fire the break, and it becomes the initial best
with move list [m]. -/
theorem minimax_full_root_step (s : TicTacToe) (d : Nat) (hs : Reachable s)
    (hw : s.isWin = false) (hdr : s.isDraw = false) (m : Nat) (rest : List Nat)
    (hms : validMoves s = m :: rest) :
    minimax s (d+1) XInt.negInf XInt.posInf =
      mmLoop s (fun s' a b => minimax s' d a b) rest
        (XInt.max XInt.negInf (XInt.neg (minimax (play s m).2 d XInt.negInf XInt.posInf).value))
        XInt.posInf
        { value := XInt.neg (minimax (play s m).2 d XInt.negInf XInt.posInf).value,
          moves := some [m] } := by
  simp only [minimax, hw, hdr, hms, if_false]
  simp only [Bool.false_eq_true, if_false, mmLoop, XInt.neg_posInf, XInt.neg_negInf]
  have hchild : (minimax (play s m).2 d XInt.negInf XInt.posInf).value ≠ XInt.negInf :=
    minimax_full_value_ne_negInf d (play s m).2 (Reachable.play s m hs)
  have hchildp : (minimax (play s m).2 d XInt.negInf XInt.posInf).value ≠ XInt.posInf :=
    minimax_value_ne_posInf (play s m).2 d XInt.negInf XInt.posInf
  set v := XInt.neg (minimax (play s m).2 d XInt.negInf XInt.posInf).value with hvdef
  have hvp : v ≠ XInt.posInf := fun hc => hchild ((XInt.neg_eq_posInf_iff _).mp hc)
  have hvn : v ≠ XInt.negInf := fun hc => hchildp ((XInt.neg_eq_negInf_iff _).mp hc)
  have hmax : XInt.max XInt.negInf v = v := by
    unfold XInt.max
    rw [if_pos (XInt.negInf_le v)]
  have hbrk : ¬(XInt.le XInt.posInf (XInt.max XInt.negInf v) = true) := by
    rw [hmax]
    intro hc
    exact hvp ((XInt.posInf_le_iff v).mp hc)
  have hge : XInt.le XInt.negInf v = true := XInt.negInf_le v
  have hgt : XInt.lt XInt.negInf v = true := by
    unfold XInt.lt
    rw [Bool.not_eq_true']
    rw [Bool.eq_false_iff]
    intro hc
    exact hvn ((XInt.le_negInf_iff v).mp hc)
  rw [if_neg hbrk, if_pos hge, if_pos hgt]

/-- C6: on every reachable state that is neither won nor drawn and has a
valid move, goodMove at any positive depth (and any random draw) returns
an index belonging to validMoves. -/
theorem goodMove_mem_validMoves (s : TicTacToe) (depth pick : Nat) (hs : Reachable s)
    (hw : s.isWin = false) (hdr : s.isDraw = false) (hv : validMoves s ≠ [])
    (hdep : 0 < depth) :
    ∃ m, goodMove s depth pick = JSResult.value (some m) ∧ m ∈ validMoves s := by
  obtain ⟨d, rfl⟩ : ∃ d, depth = d + 1 := ⟨depth - 1, by omega⟩
  obtain ⟨m, rest, hms⟩ : ∃ m rest, validMoves s = m :: rest := by
    cases hvm : validMoves s with
    | nil => exact absurd hvm hv
    | cons a t => exact ⟨a, t, rfl⟩
  have hstep := minimax_full_root_step s d hs hw hdr m rest hms
  have hroot : ∃ l, (minimax s (d+1) XInt.negInf XInt.posInf).moves = some l ∧ l ≠ [] ∧
      ∀ x ∈ l, x ∈ validMoves s := by
    rw [hstep]
    apply mmLoop_moves_good
    · refine ⟨[m], rfl, by simp, ?_⟩
      intro x hx
      rw [List.mem_singleton.mp hx, hms]
      exact List.mem_cons_self m rest
    · intro x hx
      rw [hms]
      exact List.mem_cons_of_mem m hx
  obtain ⟨l, hl, hlne, hlP⟩ := hroot
  have hlen0 : 0 < l.length := List.length_pos.mpr hlne
  have hidx : pick % l.length < l.length := Nat.mod_lt _ hlen0
  refine ⟨l[pick % l.length], ?_, hlP _ (List.getElem_mem hidx)⟩
  unfold goodMove
  rw [hl]
  show JSResult.value l[pick % l.length]? = JSResult.value (some l[pick % l.length])
  rw [List.getElem?_eq_getElem hidx]

/-- C6 witness: the fresh state at depth 1 with draw 0. -/
theorem goodMove_mem_validMoves_witness :
    ∃ m, goodMove TicTacToe.new 1 0 = JSResult.value (some m) ∧
      m ∈ validMoves TicTacToe.new :=
  goodMove_mem_validMoves TicTacToe.new 1 0 Reachable.init (by decide) (by decide)
    (by decide) (by omega)

/-- C1: the alpha-beta search does NOT match the unpruned search on every
reachable state, even with the full window: on c1State at depth 2 the
pruned search returns value 0 with best-move set [5] while the unpruned
negamax returns value 10 with best-move set [8], the immediate winning
move. The cause is the break on alpha >= beta placed before the best-set
update: a child that breaks on its first move returns value -Infinity,
the parent negates it to +Infinity, its alpha reaches +Infinity >= beta
and the parent aborts its own scan before reaching the winning move. -/
theorem minimax_prune_differs :
    Reachable c1State ∧ c1State.isWin = false ∧ c1State.isDraw = false ∧
    minimax c1State 2 XInt.negInf XInt.posInf = { value := XInt.fin 0, moves := some [5] } ∧
    negamaxPlain c1State 2 = { value := XInt.fin 10, moves := some [8] } ∧
    8 ∈ validMoves c1State ∧ (play c1State 8).2.isWin = true := by
  refine ⟨?_, by decide, by decide, by decide, by decide, by decide, by decide⟩
  exact Reachable.play _ 6 (Reachable.play _ 4 (Reachable.play _ 3
    (Reachable.play _ 2 (Reachable.play _ 1 (Reachable.play _ 0 Reachable.init)))))
